import Mathlib

/-!
Verification of the ordered-map-backed priority queue in src/src/lib.rs.

The Rust implementation keeps a BTreeMap from CustomQueueEntry (a
composite key of priority and insertion index) to the stored element.
Here the BTreeMap is shallowly embedded as an association list kept
sorted in strictly ascending key order: iter().next_back() is the last
entry of the list, insert places an entry at its ordered position
(replacing an entry with an equal key, as BTreeMap::insert does), and
remove drops the entry with the given key. u64 priorities and usize
indices are modelled as Nat: both are only created, compared and
stored, never subject to overflowing arithmetic.
-/

/-- The composite ordering key of src/src/lib.rs (lines 25-28).
Field order matches the Rust struct: the derived Ord compares
priority first, index second. -/
structure CustomQueueEntry where
  priority : Nat
  index : Nat
deriving DecidableEq

/-- CustomQueueEntry::new(index, priority) (lines 30-34). -/
def CustomQueueEntry.new (index : Nat) (priority : Nat) : CustomQueueEntry :=
  { priority := priority, index := index }

/-- The strict order on CustomQueueEntry derived by Rust: lexicographic
on (priority, index). -/
def keyLt (a b : CustomQueueEntry) : Prop :=
  a.priority < b.priority ∨ (a.priority = b.priority ∧ a.index < b.index)

instance (a b : CustomQueueEntry) : Decidable (keyLt a b) :=
  inferInstanceAs (Decidable (a.priority < b.priority ∨ (a.priority = b.priority ∧ a.index < b.index)))

/-- BTreeMap::insert on the sorted-association-list model: place the new
entry at its ordered position, replacing an existing entry whose key is
equal. -/
def mapInsert {E : Type} (k : CustomQueueEntry) (v : E) :
    List (CustomQueueEntry × E) → List (CustomQueueEntry × E)
  | [] => [(k, v)]
  | (k', v') :: rest =>
    if keyLt k k' then (k, v) :: (k', v') :: rest
    else if k = k' then (k, v) :: rest
    else (k', v') :: mapInsert k v rest

/-- BTreeMap::remove on the model: drop the entry whose key equals k and
return its value. -/
def mapRemove {E : Type} (k : CustomQueueEntry) :
    List (CustomQueueEntry × E) → Option E × List (CustomQueueEntry × E)
  | [] => (none, [])
  | (k', v') :: rest =>
    if k' = k then (some v', rest)
    else
      let r := mapRemove k rest
      (r.1, (k', v') :: r.2)

/-- iter().next_back(): the greatest entry of the map, i.e. the last
entry of the ascending-sorted list. -/
def nextBack {E : Type} (l : List (CustomQueueEntry × E)) : Option (CustomQueueEntry × E) :=
  l.getLast?

/-- Whether the store holds an entry with key k. -/
def containsKey {E : Type} (k : CustomQueueEntry) : List (CustomQueueEntry × E) → Bool
  | [] => false
  | (k', _) :: rest => k' = k || containsKey k rest

/-- The value the store holds at key k (first match). -/
def lookupKey {E : Type} (k : CustomQueueEntry) : List (CustomQueueEntry × E) → Option E
  | [] => none
  | (k', v') :: rest => if k' = k then some v' else lookupKey k rest

/-- PriorityQueueImpl (lines 20-22): owns the key-value store. -/
structure PriorityQueueImpl (E : Type) where
  data : List (CustomQueueEntry × E)
deriving DecidableEq

/-- PriorityQueue::new (lines 50-54). -/
def PriorityQueueImpl.new {E : Type} : PriorityQueueImpl E := ⟨[]⟩

/-- PriorityQueueImpl::len (lines 44-47). -/
def PriorityQueueImpl.len {E : Type} (q : PriorityQueueImpl E) : Nat :=
  q.data.length

/-- PriorityQueue::is_empty (lines 56-58). -/
def PriorityQueueImpl.is_empty {E : Type} (q : PriorityQueueImpl E) : Bool :=
  q.data.isEmpty

/-- PriorityQueue::peek (lines 60-62): the value of the greatest key. -/
def PriorityQueueImpl.peek {E : Type} (q : PriorityQueueImpl E) : Option E :=
  (nextBack q.data).map Prod.snd

/-- PriorityQueue::insert (lines 64-69): key is built from the store's
current size and the given priority. -/
def PriorityQueueImpl.insert {E : Type} (q : PriorityQueueImpl E) (element : E)
    (priority : Nat) : PriorityQueueImpl E :=
  ⟨mapInsert (CustomQueueEntry.new q.data.length priority) element q.data⟩

/-- PriorityQueue::pop (lines 71-74): read the greatest key, then remove
it, returning the removed value. -/
def PriorityQueueImpl.pop {E : Type} (q : PriorityQueueImpl E) :
    Option E × PriorityQueueImpl E :=
  match nextBack q.data with
  | none => (none, q)
  | some kv =>
    let r := mapRemove kv.1 q.data
    (r.1, ⟨r.2⟩)

/-- From<Vec<(u64, Element)>> (lines 36-42): fold insert over the
sequence in iteration order. -/
def PriorityQueueImpl.fromVec {E : Type} (vec : List (Nat × E)) : PriorityQueueImpl E :=
  vec.foldl (fun q pv => q.insert pv.2 pv.1) PriorityQueueImpl.new

/-- Drain the queue by repeated pop, with explicit fuel. -/
def popAllFuel {E : Type} : Nat → PriorityQueueImpl E → List E
  | 0, _ => []
  | n + 1, q =>
    match q.pop with
    | (none, _) => []
    | (some v, q') => v :: popAllFuel n q'

/-- Repeatedly calling pop until the queue is empty (len is enough fuel:
each successful pop removes one entry). -/
def popAll {E : Type} (q : PriorityQueueImpl E) : List E :=
  popAllFuel q.len q

/-- The model invariant of the BTreeMap embedding: keys strictly
ascending along the list. -/
abbrev SortedMap {E : Type} (l : List (CustomQueueEntry × E)) : Prop :=
  l.Pairwise fun a b => keyLt a.1 b.1

/-- Rust peek takes and returns the receiver by shared reference; its
body reads the store without writing it, so the embedded step returns
the state unchanged alongside the result. -/
def peekStep {E : Type} (q : PriorityQueueImpl E) : Option E × PriorityQueueImpl E :=
  (q.peek, q)

/-- Calling peek n times in a row, collecting the results. -/
def peekIter {E : Type} : Nat → PriorityQueueImpl E → List (Option E) × PriorityQueueImpl E
  | 0, q => ([], q)
  | n + 1, q =>
    let r := peekStep q
    let rest := peekIter n r.2
    (r.1 :: rest.1, rest.2)

/-- The spec's description of the bulk constructor: creating an empty
queue and calling insert for each pair in the sequence's iteration
order. -/
def insertEach {E : Type} : List (Nat × E) → PriorityQueueImpl E → PriorityQueueImpl E
  | [], q => q
  | pv :: rest, q => insertEach rest (q.insert pv.2 pv.1)

/-- Test harness for C3: insert the pairs of L in order, with the
element instantiated at the pair itself, so that the priority each
element was inserted with can be read off the popped value. This is the
generic insert of the source applied at Element = Nat x E. -/
def fromPairs {E : Type} (L : List (Nat × E)) : PriorityQueueImpl (Nat × E) :=
  L.foldl (fun q pe => q.insert (pe.1, pe.2) pe.1) PriorityQueueImpl.new

/-- Test harness for C1: insert the priorities of ps in order, with the
element instantiated at (priority, insertion position). For an
insert-only queue the store size at the i-th insert is i, so the second
component of each stored element is its position in ps. -/
def fromTagged (ps : List Nat) : PriorityQueueImpl (Nat × Nat) :=
  ps.foldl (fun q p => q.insert (p, q.len) p) PriorityQueueImpl.new

/-- Relabel every stored element through f, keeping keys. Two runs that
perform the same operations with the same priorities but different
element values are related by such a relabelling. -/
def mapPQ {A B : Type} (f : A → B) (q : PriorityQueueImpl A) : PriorityQueueImpl B :=
  ⟨q.data.map fun x => (x.1, f x.2)⟩

theorem keyLt_irrefl (a : CustomQueueEntry) : ¬ keyLt a a := by
  unfold keyLt; omega

theorem keyLt_trans {a b c : CustomQueueEntry} (h1 : keyLt a b) (h2 : keyLt b c) :
    keyLt a c := by
  unfold keyLt at *; omega

theorem keyLt_of_not_keyLt {a b : CustomQueueEntry} (h1 : ¬ keyLt a b) (h2 : a ≠ b) :
    keyLt b a := by
  cases a with
  | mk ap ai =>
    cases b with
    | mk bp bi =>
      have h3 : ¬ (ap = bp ∧ ai = bi) := by
        intro hc
        exact h2 (by rw [hc.1, hc.2])
      unfold keyLt at *
      simp only at h1 ⊢
      omega

theorem keyLt_priority_le {a b : CustomQueueEntry} (h : keyLt a b) :
    a.priority ≤ b.priority := by
  unfold keyLt at h; omega

theorem mem_mapInsert {E : Type} {k : CustomQueueEntry} {v : E}
    {l : List (CustomQueueEntry × E)} {x : CustomQueueEntry × E}
    (h : x ∈ mapInsert k v l) : x = (k, v) ∨ x ∈ l := by
  induction l with
  | nil =>
    simp [mapInsert] at h
    exact Or.inl h
  | cons hd tl ih =>
    obtain ⟨k', v'⟩ := hd
    by_cases h1 : keyLt k k'
    · simp only [mapInsert, if_pos h1, List.mem_cons] at h
      rcases h with h | h | h
      · exact Or.inl h
      · exact Or.inr (List.mem_cons.mpr (Or.inl h))
      · exact Or.inr (List.mem_cons_of_mem _ h)
    · by_cases h2 : k = k'
      · simp only [mapInsert, if_neg h1, if_pos h2, List.mem_cons] at h
        rcases h with h | h
        · exact Or.inl h
        · exact Or.inr (List.mem_cons_of_mem _ h)
      · simp only [mapInsert, if_neg h1, if_neg h2, List.mem_cons] at h
        rcases h with h | h
        · exact Or.inr (List.mem_cons.mpr (Or.inl h))
        · rcases ih h with h' | h'
          · exact Or.inl h'
          · exact Or.inr (List.mem_cons_of_mem _ h')

theorem mapInsert_length_fresh {E : Type} {k : CustomQueueEntry} {v : E}
    {l : List (CustomQueueEntry × E)} (h : ∀ x ∈ l, x.1 ≠ k) :
    (mapInsert k v l).length = l.length + 1 := by
  induction l with
  | nil => rfl
  | cons hd tl ih =>
    obtain ⟨k', v'⟩ := hd
    have hk' : k' ≠ k := h (k', v') (List.mem_cons_self _ _)
    by_cases h1 : keyLt k k'
    · simp [mapInsert, h1]
    · have h2 : ¬ k = k' := fun he => hk' he.symm
      simp only [mapInsert, if_neg h1, if_neg h2, List.length_cons]
      rw [ih fun x hx => h x (List.mem_cons_of_mem _ hx)]

theorem exists_of_containsKey {E : Type} {k : CustomQueueEntry}
    {l : List (CustomQueueEntry × E)} (h : containsKey k l = true) :
    ∃ v, (k, v) ∈ l := by
  induction l with
  | nil => simp [containsKey] at h
  | cons hd tl ih =>
    obtain ⟨k', v'⟩ := hd
    by_cases hk : k' = k
    · exact ⟨v', by simp [hk]⟩
    · simp [containsKey, hk] at h
      obtain ⟨v, hv⟩ := ih h
      exact ⟨v, List.mem_cons_of_mem _ hv⟩

theorem containsKey_of_mem {E : Type} {k : CustomQueueEntry} {v : E}
    {l : List (CustomQueueEntry × E)} (h : (k, v) ∈ l) :
    containsKey k l = true := by
  induction l with
  | nil => cases h
  | cons hd tl ih =>
    rcases List.mem_cons.mp h with h' | h'
    · simp [containsKey, ← h']
    · obtain ⟨k', v'⟩ := hd
      simp [containsKey, ih h']

theorem ne_of_containsKey_false {E : Type} {k : CustomQueueEntry}
    {l : List (CustomQueueEntry × E)} (h : containsKey k l = false) :
    ∀ x ∈ l, x.1 ≠ k := by
  intro x hx he
  obtain ⟨kx, vx⟩ := x
  have he' : kx = k := he
  subst he'
  rw [containsKey_of_mem hx] at h
  cases h

theorem mapInsert_sorted {E : Type} {k : CustomQueueEntry} {v : E}
    {l : List (CustomQueueEntry × E)} (hs : SortedMap l) :
    SortedMap (mapInsert k v l) := by
  induction l with
  | nil => simp [mapInsert]
  | cons hd tl ih =>
    obtain ⟨k', v'⟩ := hd
    obtain ⟨hhd, htl⟩ := List.pairwise_cons.mp hs
    by_cases h1 : keyLt k k'
    · simp only [mapInsert, if_pos h1]
      refine List.pairwise_cons.mpr ⟨?_, hs⟩
      intro b hb
      rcases List.mem_cons.mp hb with h' | h'
      · rw [h']; exact h1
      · exact keyLt_trans h1 (hhd b h')
    · by_cases h2 : k = k'
      · simp only [mapInsert, if_neg h1, if_pos h2]
        refine List.pairwise_cons.mpr ⟨?_, htl⟩
        intro b hb
        rw [h2]
        exact hhd b hb
      · simp only [mapInsert, if_neg h1, if_neg h2]
        refine List.pairwise_cons.mpr ⟨?_, ih htl⟩
        intro b hb
        rcases mem_mapInsert hb with h' | h'
        · rw [h']
          exact keyLt_of_not_keyLt h1 h2
        · exact hhd b h'

theorem mapInsert_length_contains {E : Type} {k : CustomQueueEntry} {v : E}
    {l : List (CustomQueueEntry × E)} (hs : SortedMap l)
    (h : containsKey k l = true) :
    (mapInsert k v l).length = l.length := by
  induction l with
  | nil => simp [containsKey] at h
  | cons hd tl ih =>
    obtain ⟨k', v'⟩ := hd
    obtain ⟨hhd, htl⟩ := List.pairwise_cons.mp hs
    by_cases h2 : k = k'
    · have h1 : ¬ keyLt k k' := fun hlt => keyLt_irrefl k (h2 ▸ hlt)
      simp [mapInsert, if_neg h1, if_pos h2]
    · by_cases h1 : keyLt k k'
      · exfalso
        simp only [containsKey, Bool.or_eq_true, decide_eq_true_eq] at h
        rcases h with h | h
        · exact h2 h.symm
        · obtain ⟨w, hw⟩ := exists_of_containsKey h
          exact keyLt_irrefl k (keyLt_trans h1 (hhd (k, w) hw))
      · have h3 : containsKey k tl = true := by
          simp only [containsKey, Bool.or_eq_true, decide_eq_true_eq] at h
          rcases h with h | h
          · exact absurd h.symm h2
          · exact h
        simp only [mapInsert, if_neg h1, if_neg h2, List.length_cons]
        rw [ih htl h3]

theorem lookupKey_mapInsert {E : Type} (k : CustomQueueEntry) (v : E)
    (l : List (CustomQueueEntry × E)) :
    lookupKey k (mapInsert k v l) = some v := by
  induction l with
  | nil => simp [mapInsert, lookupKey]
  | cons hd tl ih =>
    obtain ⟨k', v'⟩ := hd
    by_cases h1 : keyLt k k'
    · simp [mapInsert, h1, lookupKey]
    · by_cases h2 : k = k'
      · subst h2
        simp [mapInsert, if_neg (keyLt_irrefl k), lookupKey]
      · have h3 : k' ≠ k := fun he => h2 he.symm
        simp [mapInsert, h1, h2, lookupKey, h3, ih]

theorem insertEach_eq_foldl {E : Type} (L : List (Nat × E)) (q : PriorityQueueImpl E) :
    L.foldl (fun q pv => q.insert pv.2 pv.1) q = insertEach L q := by
  induction L generalizing q with
  | nil => rfl
  | cons pv rest ih => simp [insertEach, List.foldl_cons, ih]

/-- C10: for every queue state, is_empty() returns true exactly when
len() returns 0 (this holds for all states of the model, in particular
all reachable ones). -/
theorem C10_is_empty_iff_len_zero {E : Type} (q : PriorityQueueImpl E) :
    q.is_empty = true ↔ q.len = 0 := by
  simp [PriorityQueueImpl.is_empty, PriorityQueueImpl.len,
    List.isEmpty_iff_length_eq_zero]

/-- C4: after inserting "x" with priority 10, "y" with priority 10 and
"z" with priority 11 into a new queue, peek returns "z"; pop returns
"z"; and peek on the resulting queue returns "y". -/
theorem C4_peek_pop_example :
    (((PriorityQueueImpl.new.insert "x" 10).insert "y" 10).insert "z" 11).peek = some "z" ∧
    ((((PriorityQueueImpl.new.insert "x" 10).insert "y" 10).insert "z" 11).pop).1 = some "z" ∧
    ((((PriorityQueueImpl.new.insert "x" 10).insert "y" 10).insert "z" 11).pop).2.peek = some "y" := by
  refine ⟨rfl, rfl, rfl⟩

/-- C6: peek leaves the queue unchanged: iterating peek any number of
times returns the one-call result each time, the state after the
iterations is the original state, and pop afterwards gives the same
result as pop without any peek. -/
theorem C6_peek_is_pure {E : Type} (q : PriorityQueueImpl E) (n : Nat) :
    (peekIter n q).2 = q ∧ (peekIter n q).1 = List.replicate n q.peek ∧
    (peekIter n q).2.pop = q.pop := by
  induction n with
  | zero => exact ⟨rfl, rfl, rfl⟩
  | succ m ih =>
    refine ⟨?_, ?_, ?_⟩ <;>
      simp [peekIter, peekStep, List.replicate_succ, ih.1, ih.2.1]

/-- C5: the bulk constructor is equivalent to inserting each pair of the
sequence, in iteration order, into a queue created empty: the states are
equal, hence len and the full pop order agree. -/
theorem C5_fromVec_equiv_inserts {E : Type} (L : List (Nat × E)) :
    PriorityQueueImpl.fromVec L = insertEach L PriorityQueueImpl.new ∧
    (PriorityQueueImpl.fromVec L).len = (insertEach L PriorityQueueImpl.new).len ∧
    popAll (PriorityQueueImpl.fromVec L) = popAll (insertEach L PriorityQueueImpl.new) := by
  have h : PriorityQueueImpl.fromVec L = insertEach L PriorityQueueImpl.new :=
    insertEach_eq_foldl L PriorityQueueImpl.new
  exact ⟨h, by rw [h], by rw [h]⟩

theorem nextBack_mem {E : Type} {l : List (CustomQueueEntry × E)}
    {x : CustomQueueEntry × E} (h : nextBack l = some x) : x ∈ l := by
  unfold nextBack at h
  obtain ⟨_, h2⟩ := List.mem_getLast?_eq_getLast h
  rw [h2]
  exact List.getLast_mem _

theorem mapRemove_of_containsKey {E : Type} {k : CustomQueueEntry}
    {l : List (CustomQueueEntry × E)} (h : containsKey k l = true) :
    (mapRemove k l).1.isSome = true ∧ (mapRemove k l).2.length + 1 = l.length := by
  induction l with
  | nil => simp [containsKey] at h
  | cons hd tl ih =>
    obtain ⟨k', v'⟩ := hd
    by_cases hk : k' = k
    · simp [mapRemove, hk]
    · have h3 : containsKey k tl = true := by
        simp only [containsKey, Bool.or_eq_true, decide_eq_true_eq] at h
        rcases h with h | h
        · exact absurd h hk
        · exact h
      simp only [mapRemove, if_neg hk, List.length_cons]
      exact ⟨(ih h3).1, by rw [← (ih h3).2]⟩

theorem sorted_concat_keys {E : Type} {l : List (CustomQueueEntry × E)}
    {kv : CustomQueueEntry × E} (hs : SortedMap (l ++ [kv])) :
    ∀ x ∈ l, keyLt x.1 kv.1 := by
  intro x hx
  exact (List.pairwise_append.mp hs).2.2 x hx kv (List.mem_singleton.mpr rfl)

theorem mapRemove_concat {E : Type} {l : List (CustomQueueEntry × E)}
    {k : CustomQueueEntry} {v : E} (h : ∀ x ∈ l, x.1 ≠ k) :
    mapRemove k (l ++ [(k, v)]) = (some v, l) := by
  induction l with
  | nil => simp [mapRemove]
  | cons hd tl ih =>
    obtain ⟨k', v'⟩ := hd
    have hk' : k' ≠ k := h (k', v') (List.mem_cons_self _ _)
    have ih' := ih fun x hx => h x (List.mem_cons_of_mem _ hx)
    simp [mapRemove, hk', ih']

theorem pop_concat {E : Type} {l : List (CustomQueueEntry × E)}
    {kv : CustomQueueEntry × E} (hs : SortedMap (l ++ [kv])) :
    PriorityQueueImpl.pop ⟨l ++ [kv]⟩ = (some kv.2, ⟨l⟩) := by
  have hne : ∀ x ∈ l, x.1 ≠ kv.1 := fun x hx heq =>
    keyLt_irrefl kv.1 (heq ▸ sorted_concat_keys hs x hx)
  obtain ⟨k, v⟩ := kv
  simp only [PriorityQueueImpl.pop, nextBack, List.getLast?_concat]
  rw [mapRemove_concat hne]

theorem popAllFuel_sorted {E : Type} {n : Nat} :
    ∀ {l : List (CustomQueueEntry × E)}, SortedMap l → l.length ≤ n →
      popAllFuel n ⟨l⟩ = (l.map Prod.snd).reverse := by
  induction n with
  | zero =>
    intro l _ hlen
    rw [Nat.le_zero, List.length_eq_zero] at hlen
    subst hlen
    rfl
  | succ m ih =>
    intro l hs hlen
    rcases List.eq_nil_or_concat l with rfl | ⟨l', kv, rfl⟩
    · rfl
    · rw [List.concat_eq_append] at hs hlen ⊢
      rw [popAllFuel, pop_concat hs]
      have hs' : SortedMap l' := (List.pairwise_append.mp hs).1
      have hlen' : l'.length ≤ m := by
        rw [List.length_append, List.length_singleton] at hlen
        omega
      show kv.2 :: popAllFuel m ⟨l'⟩ = _
      rw [ih hs' hlen']
      simp

theorem popAll_sorted {E : Type} {q : PriorityQueueImpl E} (hs : SortedMap q.data) :
    popAll q = (q.data.map Prod.snd).reverse := by
  obtain ⟨l⟩ := q
  exact popAllFuel_sorted hs (Nat.le_refl _)

/-- C7: pop on a non-empty queue returns a present element and shrinks
len by exactly 1; pop and peek on the empty queue return none, the
state is unchanged, and len stays 0. -/
theorem C7_pop_len {E : Type} (q : PriorityQueueImpl E) :
    (q.is_empty = false → (q.pop.1.isSome = true ∧ q.pop.2.len + 1 = q.len)) ∧
    (q.is_empty = true → (q.pop = (none, q) ∧ q.peek = none ∧ q.len = 0)) := by
  constructor
  · intro he
    have hne : q.data ≠ [] := by
      intro hnil
      rw [PriorityQueueImpl.is_empty, hnil] at he
      cases he
    have hsome : (nextBack q.data).isSome = true := by
      unfold nextBack
      exact List.getLast?_isSome.mpr hne
    obtain ⟨kv, hkv⟩ := Option.isSome_iff_exists.mp hsome
    have hmem : kv ∈ q.data := nextBack_mem hkv
    have hck : containsKey kv.1 q.data = true := by
      obtain ⟨k, v⟩ := kv
      exact containsKey_of_mem hmem
    have hr := mapRemove_of_containsKey hck
    rw [PriorityQueueImpl.pop, hkv]
    exact ⟨hr.1, hr.2⟩
  · intro he
    have hnil : q.data = [] := by
      rw [PriorityQueueImpl.is_empty, List.isEmpty_iff] at he
      exact he
    obtain ⟨l⟩ := q
    simp only at hnil
    subst hnil
    exact ⟨rfl, rfl, rfl⟩

/-- Witness for C7, at a one-element queue and at the empty queue. -/
theorem C7_pop_len_witness :
    ((PriorityQueueImpl.new.insert (7 : Nat) 3).is_empty = false ∧
      ((PriorityQueueImpl.new.insert (7 : Nat) 3).pop.1.isSome = true ∧
        (PriorityQueueImpl.new.insert (7 : Nat) 3).pop.2.len + 1 =
          (PriorityQueueImpl.new.insert (7 : Nat) 3).len)) ∧
    ((PriorityQueueImpl.new : PriorityQueueImpl Nat).is_empty = true ∧
      ((PriorityQueueImpl.new : PriorityQueueImpl Nat).pop =
          (none, PriorityQueueImpl.new) ∧
        (PriorityQueueImpl.new : PriorityQueueImpl Nat).peek = none ∧
        (PriorityQueueImpl.new : PriorityQueueImpl Nat).len = 0)) :=
  ⟨⟨by decide, (C7_pop_len (PriorityQueueImpl.new.insert (7 : Nat) 3)).1 (by decide)⟩,
   ⟨by decide, (C7_pop_len (PriorityQueueImpl.new : PriorityQueueImpl Nat)).2 (by decide)⟩⟩

theorem insert_fresh {E : Type} (q : PriorityQueueImpl E) (e : E) (p : Nat)
    (hb : ∀ x ∈ q.data, x.1.index < q.data.length) :
    (q.insert e p).len = q.len + 1 ∧
    (∀ x ∈ (q.insert e p).data,
      x = (CustomQueueEntry.new q.data.length p, e) ∨ x ∈ q.data) ∧
    (SortedMap q.data → SortedMap (q.insert e p).data) ∧
    (∀ x ∈ (q.insert e p).data, x.1.index < (q.insert e p).data.length) := by
  have hfresh : ∀ x ∈ q.data, x.1 ≠ CustomQueueEntry.new q.data.length p := by
    intro x hx heq
    have hlt := hb x hx
    rw [heq] at hlt
    exact Nat.lt_irrefl _ hlt
  have hlen : (q.insert e p).len = q.len + 1 := mapInsert_length_fresh hfresh
  refine ⟨hlen, fun x hx => mem_mapInsert hx, fun hs => mapInsert_sorted hs, ?_⟩
  intro x hx
  have hlen' : (q.insert e p).data.length = q.data.length + 1 := hlen
  rcases mem_mapInsert hx with h | h
  · rw [h, hlen']
    exact Nat.lt_succ_self _
  · rw [hlen']
    exact Nat.lt_succ_of_lt (hb x h)

theorem fromPairs_aux {E : Type} (L : List (Nat × E)) :
    ∀ q : PriorityQueueImpl (Nat × E),
      SortedMap q.data →
      (∀ x ∈ q.data, x.1.index < q.data.length) →
      (∀ x ∈ q.data, x.2.1 = x.1.priority) →
      SortedMap (L.foldl (fun q pe => q.insert (pe.1, pe.2) pe.1) q).data ∧
      (∀ x ∈ (L.foldl (fun q pe => q.insert (pe.1, pe.2) pe.1) q).data,
        x.2.1 = x.1.priority) ∧
      (L.foldl (fun q pe => q.insert (pe.1, pe.2) pe.1) q).len = q.len + L.length := by
  induction L with
  | nil =>
    intro q hs _ ht
    exact ⟨hs, ht, rfl⟩
  | cons pe rest ih =>
    intro q hs hb ht
    have hstep := insert_fresh q (pe.1, pe.2) pe.1 hb
    have ht' : ∀ x ∈ (q.insert (pe.1, pe.2) pe.1).data, x.2.1 = x.1.priority := by
      intro x hx
      rcases hstep.2.1 x hx with h | h
      · rw [h]; rfl
      · exact ht x h
    have hres := ih (q.insert (pe.1, pe.2) pe.1) (hstep.2.2.1 hs) hstep.2.2.2 ht'
    refine ⟨hres.1, hres.2.1, ?_⟩
    rw [List.foldl_cons, hres.2.2, hstep.1, List.length_cons]
    omega

/-- C3: inserting any finite sequence of (priority, element) pairs into
a new queue and popping until empty yields the elements in
non-increasing priority order (each popped value carries the priority it
was inserted with as its first component), and every inserted element is
popped. -/
theorem C3_pop_nonincreasing {E : Type} (L : List (Nat × E)) :
    List.Pairwise (fun a b => b.1 ≤ a.1) (popAll (fromPairs L)) ∧
    (popAll (fromPairs L)).length = L.length := by
  have hbase1 : SortedMap (PriorityQueueImpl.new : PriorityQueueImpl (Nat × E)).data :=
    List.Pairwise.nil
  have hbase2 : ∀ x ∈ (PriorityQueueImpl.new : PriorityQueueImpl (Nat × E)).data,
      x.1.index < (PriorityQueueImpl.new : PriorityQueueImpl (Nat × E)).data.length := by
    intro x hx; cases hx
  have hbase3 : ∀ x ∈ (PriorityQueueImpl.new : PriorityQueueImpl (Nat × E)).data,
      x.2.1 = x.1.priority := by
    intro x hx; cases hx
  obtain ⟨hs, ht, hlen⟩ := fromPairs_aux L PriorityQueueImpl.new hbase1 hbase2 hbase3
  have hpop : popAll (fromPairs L) = ((fromPairs L).data.map Prod.snd).reverse :=
    popAll_sorted hs
  constructor
  · rw [hpop, List.pairwise_reverse, List.pairwise_map]
    refine List.Pairwise.imp_of_mem ?_ hs
    intro a b ha hb hlt
    rw [ht a ha, ht b hb]
    exact keyLt_priority_le hlt
  · rw [hpop, List.length_reverse, List.length_map]
    have h0 : (PriorityQueueImpl.new : PriorityQueueImpl (Nat × E)).len = 0 := rfl
    rw [h0, Nat.zero_add] at hlen
    exact hlen

theorem fromTagged_aux (ps : List Nat) :
    ∀ q : PriorityQueueImpl (Nat × Nat),
      SortedMap q.data →
      (∀ x ∈ q.data, x.1.index < q.data.length) →
      (∀ x ∈ q.data, x.2 = (x.1.priority, x.1.index)) →
      SortedMap (ps.foldl (fun q p => q.insert (p, q.len) p) q).data ∧
      (∀ x ∈ (ps.foldl (fun q p => q.insert (p, q.len) p) q).data,
        x.2 = (x.1.priority, x.1.index)) ∧
      (ps.foldl (fun q p => q.insert (p, q.len) p) q).len = q.len + ps.length := by
  induction ps with
  | nil =>
    intro q hs _ ht
    exact ⟨hs, ht, rfl⟩
  | cons p rest ih =>
    intro q hs hb ht
    have hstep := insert_fresh q (p, q.len) p hb
    have ht' : ∀ x ∈ (q.insert (p, q.len) p).data, x.2 = (x.1.priority, x.1.index) := by
      intro x hx
      rcases hstep.2.1 x hx with h | h
      · rw [h]; rfl
      · exact ht x h
    have hres := ih (q.insert (p, q.len) p) (hstep.2.2.1 hs) hstep.2.2.2 ht'
    refine ⟨hres.1, hres.2.1, ?_⟩
    rw [List.foldl_cons, hres.2.2, hstep.1, List.length_cons]
    omega

/-- C1 is corrected: the tie-break is last-in-first-out, not
first-in-first-out. Amended statement: for a queue built by a sequence
of insert calls with no interleaved removals, pop yields elements in
strictly descending composite-key order, so among elements inserted
with equal priority a LATER insertion is popped before an earlier one
(reverse insertion order). Each popped value here is (priority,
insertion position); the popped list also has full length, so every
insertion is accounted for. -/
theorem C1_amended_equal_priority_lifo (ps : List Nat) :
    List.Pairwise
      (fun a b : Nat × Nat => b.1 < a.1 ∨ (b.1 = a.1 ∧ b.2 < a.2))
      (popAll (fromTagged ps)) ∧
    (popAll (fromTagged ps)).length = ps.length := by
  have hbase1 : SortedMap (PriorityQueueImpl.new : PriorityQueueImpl (Nat × Nat)).data :=
    List.Pairwise.nil
  have hbase2 : ∀ x ∈ (PriorityQueueImpl.new : PriorityQueueImpl (Nat × Nat)).data,
      x.1.index < (PriorityQueueImpl.new : PriorityQueueImpl (Nat × Nat)).data.length := by
    intro x hx; cases hx
  have hbase3 : ∀ x ∈ (PriorityQueueImpl.new : PriorityQueueImpl (Nat × Nat)).data,
      x.2 = (x.1.priority, x.1.index) := by
    intro x hx; cases hx
  obtain ⟨hs, ht, hlen⟩ := fromTagged_aux ps PriorityQueueImpl.new hbase1 hbase2 hbase3
  have hpop : popAll (fromTagged ps) = ((fromTagged ps).data.map Prod.snd).reverse :=
    popAll_sorted hs
  constructor
  · rw [hpop, List.pairwise_reverse, List.pairwise_map]
    refine List.Pairwise.imp_of_mem ?_ hs
    intro a b ha hb hlt
    rw [ht a ha, ht b hb]
    unfold keyLt at hlt
    exact hlt
  · rw [hpop, List.length_reverse, List.length_map]
    have h0 : (PriorityQueueImpl.new : PriorityQueueImpl (Nat × Nat)).len = 0 := rfl
    rw [h0, Nat.zero_add] at hlen
    exact hlen

/-- Counterexample to C1 as stated: insert element 1 then element 2,
both with priority 5 and with no interleaved removals; draining the
queue yields [2, 1], the reverse of insertion order, not the
first-in-first-out order [1, 2]. -/
theorem C1_counterexample :
    popAll ((PriorityQueueImpl.new.insert (1 : Nat) 5).insert 2 5) = [2, 1] ∧
    ([2, 1] : List Nat) ≠ [1, 2] := by
  exact ⟨rfl, by decide⟩

/-- Counterexample to C2 as stated: insert element 10 at priority 9,
then element 20 at priority 5, then pop (removing the priority-9
entry). The store now holds the key (priority 5, sequence 1) while
len = 1, so the next insert at priority 5 builds exactly that key:
the composite key is NOT structurally unique at call time and len does
not increase. -/
theorem C2_counterexample :
    ((((PriorityQueueImpl.new.insert (10 : Nat) 9).insert 20 5).pop.2).insert 30 5).len =
      (((PriorityQueueImpl.new.insert (10 : Nat) 9).insert 20 5).pop.2).len ∧
    ¬ ((((PriorityQueueImpl.new.insert (10 : Nat) 9).insert 20 5).pop.2).insert 30 5).len =
      (((PriorityQueueImpl.new.insert (10 : Nat) 9).insert 20 5).pop.2).len + 1 ∧
    containsKey
      (CustomQueueEntry.new (((PriorityQueueImpl.new.insert (10 : Nat) 9).insert 20 5).pop.2).len 5)
      ((((PriorityQueueImpl.new.insert (10 : Nat) 9).insert 20 5).pop.2)).data = true := by
  decide

/-- C2 amended: insert always succeeds and never faults, but the
composite key (priority, len) is fresh — and len grows by exactly 1 —
only when the store holds no live entry with that key; when it does
(reachable after removals), the entry is overwritten and len is
unchanged. -/
theorem C2_amended_insert_len {E : Type} (q : PriorityQueueImpl E) (e : E) (p : Nat)
    (hs : SortedMap q.data) :
    (q.insert e p).len =
      if containsKey (CustomQueueEntry.new q.len p) q.data = true then q.len
      else q.len + 1 := by
  by_cases h : containsKey (CustomQueueEntry.new q.len p) q.data = true
  · rw [if_pos h]
    exact mapInsert_length_contains hs h
  · rw [if_neg h]
    have h' : containsKey (CustomQueueEntry.new q.len p) q.data = false := by
      cases hc : containsKey (CustomQueueEntry.new q.len p) q.data
      · rfl
      · exact absurd hc h
    exact mapInsert_length_fresh (ne_of_containsKey_false h')

/-- Witness for C2's amended theorem at the empty queue. -/
theorem C2_amended_insert_len_witness :
    SortedMap (PriorityQueueImpl.new : PriorityQueueImpl Nat).data ∧
    ((PriorityQueueImpl.new : PriorityQueueImpl Nat).insert 5 7).len =
      (if containsKey
          (CustomQueueEntry.new (PriorityQueueImpl.new : PriorityQueueImpl Nat).len 7)
          (PriorityQueueImpl.new : PriorityQueueImpl Nat).data = true then
        (PriorityQueueImpl.new : PriorityQueueImpl Nat).len
      else (PriorityQueueImpl.new : PriorityQueueImpl Nat).len + 1) :=
  ⟨List.Pairwise.nil, C2_amended_insert_len PriorityQueueImpl.new 5 7 List.Pairwise.nil⟩

/-- C8: on a sorted store (the BTreeMap invariant, which every
reachable state satisfies), insert with a colliding composite key
(priority, len) overwrites the live entry and leaves len unchanged;
with a fresh key it adds an entry and len grows by 1. In both cases the
store afterwards maps the key to the new element. -/
theorem C8_insert_replace {E : Type} (q : PriorityQueueImpl E) (e : E) (p : Nat)
    (hs : SortedMap q.data) :
    (containsKey (CustomQueueEntry.new q.len p) q.data = true →
      (q.insert e p).len = q.len) ∧
    (containsKey (CustomQueueEntry.new q.len p) q.data = false →
      (q.insert e p).len = q.len + 1) ∧
    lookupKey (CustomQueueEntry.new q.len p) (q.insert e p).data = some e :=
  ⟨fun h => mapInsert_length_contains hs h,
   fun h => mapInsert_length_fresh (ne_of_containsKey_false h),
   lookupKey_mapInsert _ _ _⟩

/-- Witness for C8 at a state with a live entry whose key is
(priority 5, sequence 1) and len = 1 — the state reached in the C2
counterexample — where insert at priority 5 collides and replaces. -/
theorem C8_insert_replace_witness :
    SortedMap (⟨[({ priority := 5, index := 1 }, (20 : Nat))]⟩ : PriorityQueueImpl Nat).data ∧
    containsKey
      (CustomQueueEntry.new
        (⟨[({ priority := 5, index := 1 }, (20 : Nat))]⟩ : PriorityQueueImpl Nat).len 5)
      (⟨[({ priority := 5, index := 1 }, (20 : Nat))]⟩ : PriorityQueueImpl Nat).data = true ∧
    ((⟨[({ priority := 5, index := 1 }, (20 : Nat))]⟩ : PriorityQueueImpl Nat).insert 30 5).len =
      (⟨[({ priority := 5, index := 1 }, (20 : Nat))]⟩ : PriorityQueueImpl Nat).len := by
  refine ⟨by decide, by decide, ?_⟩
  exact (C8_insert_replace (⟨[({ priority := 5, index := 1 }, (20 : Nat))]⟩ : PriorityQueueImpl Nat)
    30 5 (by decide)).1 (by decide)

theorem mapInsert_map {A B : Type} (f : A → B) (k : CustomQueueEntry) (v : A)
    (l : List (CustomQueueEntry × A)) :
    mapInsert k (f v) (l.map fun x => (x.1, f x.2)) =
      (mapInsert k v l).map fun x => (x.1, f x.2) := by
  induction l with
  | nil => rfl
  | cons hd tl ih =>
    obtain ⟨k', v'⟩ := hd
    by_cases h1 : keyLt k k'
    · simp [mapInsert, h1]
    · by_cases h2 : k = k'
      · subst h2
        simp [mapInsert, if_neg (keyLt_irrefl k)]
      · simp [mapInsert, if_neg h1, h2, ih]

theorem mapRemove_map {A B : Type} (f : A → B) (k : CustomQueueEntry)
    (l : List (CustomQueueEntry × A)) :
    mapRemove k (l.map fun x => (x.1, f x.2)) =
      ((mapRemove k l).1.map f, (mapRemove k l).2.map fun x => (x.1, f x.2)) := by
  induction l with
  | nil => rfl
  | cons hd tl ih =>
    obtain ⟨k', v'⟩ := hd
    by_cases hk : k' = k
    · simp [mapRemove, hk]
    · simp [mapRemove, hk, ih]

theorem pop_mapPQ {A B : Type} (f : A → B) (q : PriorityQueueImpl A) :
    (mapPQ f q).pop = (q.pop.1.map f, mapPQ f q.pop.2) := by
  obtain ⟨l⟩ := q
  cases hl : nextBack l with
  | none =>
    have hnone : nextBack (l.map fun x => (x.1, f x.2)) = none := by
      unfold nextBack at hl ⊢
      rw [List.getLast?_map, hl]
      rfl
    simp [PriorityQueueImpl.pop, mapPQ, hl, hnone]
  | some kv =>
    have hsome : nextBack (l.map fun x => (x.1, f x.2)) = some (kv.1, f kv.2) := by
      unfold nextBack at hl ⊢
      rw [List.getLast?_map, hl]
      rfl
    simp only [PriorityQueueImpl.pop, mapPQ, hl, hsome]
    rw [mapRemove_map]

theorem popAllFuel_mapPQ {A B : Type} (f : A → B) (n : Nat) :
    ∀ q : PriorityQueueImpl A, popAllFuel n (mapPQ f q) = (popAllFuel n q).map f := by
  induction n with
  | zero => intro q; rfl
  | succ m ih =>
    intro q
    rw [popAllFuel, popAllFuel, pop_mapPQ]
    cases hp : q.pop with
    | mk o q' =>
      cases o with
      | none => simp
      | some v => simp [ih]

theorem insert_mapPQ {A B : Type} (f : A → B) (q : PriorityQueueImpl A) (e : A) (p : Nat) :
    mapPQ f (q.insert e p) = (mapPQ f q).insert (f e) p := by
  obtain ⟨l⟩ := q
  show PriorityQueueImpl.mk
      ((mapInsert (CustomQueueEntry.new l.length p) e l).map fun x => (x.1, f x.2)) =
    PriorityQueueImpl.mk
      (mapInsert (CustomQueueEntry.new (l.map fun x => (x.1, f x.2)).length p) (f e)
        (l.map fun x => (x.1, f x.2)))
  rw [List.length_map, mapInsert_map]

/-- C9: queue behaviour is independent of element contents. Relabelling
the stored elements through any function f commutes with every
operation, so two runs of the same operation sequence with the same
priorities but different element values agree on len, is_empty, and on
which stored entry each peek/pop serves: the run with relabelled
elements peeks/pops exactly the relabelling of what the original run
peeks/pops, step by step. -/
theorem C9_element_agnostic {A B : Type} (f : A → B) (q : PriorityQueueImpl A)
    (e : A) (p : Nat) (n : Nat) :
    (mapPQ f q).len = q.len ∧
    (mapPQ f q).is_empty = q.is_empty ∧
    mapPQ f (q.insert e p) = (mapPQ f q).insert (f e) p ∧
    (mapPQ f q).peek = q.peek.map f ∧
    (mapPQ f q).pop.1 = q.pop.1.map f ∧
    (mapPQ f q).pop.2 = mapPQ f q.pop.2 ∧
    popAllFuel n (mapPQ f q) = (popAllFuel n q).map f := by
  refine ⟨?_, ?_, insert_mapPQ f q e p, ?_, ?_, ?_, popAllFuel_mapPQ f n q⟩
  · simp [mapPQ, PriorityQueueImpl.len]
  · obtain ⟨l⟩ := q
    cases l <;> rfl
  · obtain ⟨l⟩ := q
    show ((nextBack (l.map fun x => (x.1, f x.2))).map Prod.snd) =
      ((nextBack l).map Prod.snd).map f
    unfold nextBack
    rw [List.getLast?_map]
    cases l.getLast? <;> rfl
  · rw [pop_mapPQ]
  · rw [pop_mapPQ]
